import Mathlib

/-!
Verification of the `rustdoc_seeker` crate: a shallow embedding of its data
model (`TypeItem`, `DocItem`, the `RustDoc` catalog and the `RustDocSeeker`
index) together with the manifest normalizer (`fix_json`) and the path
resolver of `FromStr for RustDoc`, and proofs of the specification claims.

Modelling conventions:
* Rust strings and `string_cache` atoms are Lean `String`s.  The crate
  compares names as UTF-8 byte slices; since UTF-8 byte-lexicographic order
  and equality coincide with codepoint-lexicographic order and equality, we
  model a byte slice by the list of codepoints (`strBytes`).
* `u64` packing `(start << 32) + end` is modelled on `Nat` as
  `start * 2^32 + end`; the decode `idx >> 32` / `idx & 0xffffffff` is
  `idx / 2^32` / `idx % 2^32`.
* The `fst` map is an external collaborator: per the specification it is an
  ordered key→value map built by in-order insertion whose `search` streams
  the accepted entries in ascending key order.  We model it as the
  association list of inserted pairs, and an automaton as the predicate on
  keys it accepts (running all bytes from the start state and testing
  `is_match`).
* `assert!` failure / fatal errors are modelled with `Except`.
-/

namespace RustdocSeeker

/-- Codepoint list of a string, standing for its UTF-8 byte slice
(byte-wise order and equality agree with codepoint-wise ones). -/

def strBytes (s : String) : List Nat := s.data.map Char.toNat

/-- Lexicographic comparison of byte sequences: the order `&[u8]: Ord` uses. -/

def natsCmp : List Nat → List Nat → Ordering
  | [], [] => .eq
  | [], _ :: _ => .lt
  | _ :: _, [] => .gt
  | a :: as, b :: bs => (compare a b).then (natsCmp as bs)

/-- The `TypeItem` from `seeker.rs`: an entity category carrying the bare name
atom.  One constructor per `enum_number!` variant, tags 0–22. -/

inductive TypeItem where
  | Module (data : String)
  | ExternCrate (data : String)
  | Import (data : String)
  | Struct (data : String)
  | Enum (data : String)
  | Function (data : String)
  | Typedef (data : String)
  | Static (data : String)
  | Trait (data : String)
  | Impl (data : String)
  | TyMethod (data : String)
  | Method (data : String)
  | StructField (data : String)
  | Variant (data : String)
  | Macro (data : String)
  | Primitive (data : String)
  | AssociatedType (data : String)
  | Constant (data : String)
  | AssociatedConst (data : String)
  | Union (data : String)
  | ForeignType (data : String)
  | Keyword (data : String)
  | Existential (data : String)
deriving DecidableEq

namespace TypeItem

/-- The `AsRef<Atom> for TypeItem`: the bare name carried by the variant. -/
def asRef : TypeItem → String
  | Module data => data
  | ExternCrate data => data
  | Import data => data
  | Struct data => data
  | Enum data => data
  | Function data => data
  | Typedef data => data
  | Static data => data
  | Trait data => data
  | Impl data => data
  | TyMethod data => data
  | Method data => data
  | StructField data => data
  | Variant data => data
  | Macro data => data
  | Primitive data => data
  | AssociatedType data => data
  | Constant data => data
  | AssociatedConst data => data
  | Union data => data
  | ForeignType data => data
  | Keyword data => data
  | Existential data => data

/-- The display tag of each variant from the `enum_number!` table in
`seeker.rs` (the `$display` column). -/
def tag : TypeItem → String
  | Module _ => "module"
  | ExternCrate _ => "externcrate"
  | Import _ => "import"
  | Struct _ => "struct"
  | Enum _ => "enum"
  | Function _ => "fn"
  | Typedef _ => "type"
  | Static _ => "static"
  | Trait _ => "trait"
  | Impl _ => "impl"
  | TyMethod _ => "tymethod"
  | Method _ => "method"
  | StructField _ => "structfield"
  | Variant _ => "variant"
  | Macro _ => "macro"
  | Primitive _ => "primitive"
  | AssociatedType _ => "associatedtype"
  | Constant _ => "constant"
  | AssociatedConst _ => "associatedconst"
  | Union _ => "union"
  | ForeignType _ => "foreigntype"
  | Keyword _ => "keyword"
  | Existential _ => "existential"

/-- The `Display for TypeItem`: `write!(f, "{}.{}", $display, data)`. -/
def display (t : TypeItem) : String := t.tag ++ "." ++ t.asRef

end TypeItem

/-- The `DocItem` from `seeker.rs`. -/

structure DocItem where
  name : TypeItem
  parent : Option TypeItem
  path : String
  desc : String
deriving DecidableEq

namespace DocItem

/-- The `DocItem::index_key`: the byte slice of the name's atom. -/

def indexKey (d : DocItem) : List Nat := strBytes d.name.asRef

/-- The `DocItem::parent_atom`, taken to bytes (`Option<&Atom>` ordered with
`None < Some`, `Atom` ordered as its string bytes). -/

def parentBytes (d : DocItem) : Option (List Nat) :=
  d.parent.map fun p => strBytes p.asRef

end DocItem

/-- The `Option<&Atom>::cmp`: `None` sorts before `Some`, two `Some`s compare
their contents. -/

def optCmp : Option (List Nat) → Option (List Nat) → Ordering
  | none, none => .eq
  | none, some _ => .lt
  | some _, none => .gt
  | some a, some b => natsCmp a b

/-- The `Ord for DocItem`:
`index_key.cmp.then_with(path.cmp).then_with(parent_atom.cmp)`. -/

def docItemCmp (x y : DocItem) : Ordering :=
  ((natsCmp x.indexKey y.indexKey).then
      (natsCmp (strBytes x.path) (strBytes y.path))).then
    (optCmp x.parentBytes y.parentBytes)

/-- The `PartialEq for DocItem`: name, parent and path must all be equal
(`desc` is ignored; the categories of name and parent do count). -/

def docItemEq (x y : DocItem) : Bool :=
  x.name == y.name && x.parent == y.parent && x.path == y.path

/-- The `BTreeSet<DocItem>` is modelled as its sorted element list; sortedness
is with respect to the strict `Ord` above. -/

def SortedSet (s : List DocItem) : Prop :=
  List.Chain' (fun a b => docItemCmp a b = .lt) s

/-- Decision procedure for sortedness (used to evaluate concrete
witnesses). -/

def sortedSetDecAux : ∀ s : List DocItem, Decidable (SortedSet s)
  | [] => isTrue List.chain'_nil
  | [x] => isTrue (List.chain'_singleton x)
  | x :: y :: rest =>
    have : Decidable (SortedSet (y :: rest)) := sortedSetDecAux (y :: rest)
    decidable_of_iff (docItemCmp x y = .lt ∧ SortedSet (y :: rest))
      (Iff.symm (@List.chain'_cons DocItem (fun a b => docItemCmp a b = .lt) x y rest))

instance (s : List DocItem) : Decidable (SortedSet s) := sortedSetDecAux s

/-- The `BTreeSet::insert`: place the new element at its ordered position; if an
`Ord`-equal element is already present the set is unchanged (the old element
is kept). -/

def setInsert (x : DocItem) : List DocItem → List DocItem
  | [] => [x]
  | y :: ys =>
    match docItemCmp x y with
    | .lt => x :: y :: ys
    | .eq => y :: ys
    | .gt => y :: setInsert x ys

/-- The `Extend<DocItem> for RustDoc` / `BTreeSet::extend`: insert each element
of the iterator in turn. -/

def setExtend (s : List DocItem) (t : List DocItem) : List DocItem :=
  t.foldl (fun acc y => setInsert y acc) s

/-- Membership up to `Ord`-equality: what `BTreeSet` consults on insertion. -/

def CmpMem (x : DocItem) (s : List DocItem) : Prop :=
  ∃ y ∈ s, docItemCmp x y = .eq

/-- The run predicate of `RustDoc::build`'s `group_by(|(_, item)| item.index_key())`:
a following element belongs to the current group while its key equals the
group head's key. -/

def sameKey (x : DocItem) : DocItem → Bool :=
  fun y => y.indexKey == x.indexKey

/-- The `(key, start, end)` triples computed by the `for (key, mut group)`
loop of `RustDoc::build`, with `i` the enumeration index of the first
remaining element: one triple per maximal run of consecutive elements with
equal `index_key`, `start` the index of the run's first element and `end`
one past its last. -/

def groupRangesGo (i : Nat) : List DocItem → List (List Nat × Nat × Nat)
  | [] => []
  | x :: xs =>
    (x.indexKey, i, i + ((xs.takeWhile (sameKey x)).length + 1)) ::
      groupRangesGo (i + ((xs.takeWhile (sameKey x)).length + 1)) (xs.dropWhile (sameKey x))
termination_by l => l.length
decreasing_by
  simp only [List.length_cons]
  exact Nat.lt_succ_of_le (List.dropWhile_sublist _).length_le

def groupRanges (items : List DocItem) : List (List Nat × Nat × Nat) :=
  groupRangesGo 0 items

/-- The fatal error of the `assert!(items.len() as u64 <= u32::MAX as u64)`
capacity precondition (spec name `CapacityError`). -/

inductive CapacityError where
  | capacity
deriving DecidableEq

/-- The `RustDoc` from `seeker.rs`: the catalog, a `BTreeSet<DocItem>` modelled
by its sorted element list. -/

structure RustDoc where
  items : List DocItem
deriving DecidableEq

/-- The `RustDocSeeker`: the frozen item array plus the key→packed-range map,
the `fst` map modelled as its in-order (key, value) insertion list. -/

structure RustDocSeeker where
  items : List DocItem
  index : List (List Nat × Nat)
deriving DecidableEq

/-- The `RustDoc::build`: materialize the items, check the 32-bit capacity
precondition (the `assert!`, modelled as a fatal `CapacityError`) before
emitting any entry, then insert `(key, (start << 32) + end)` per maximal
equal-key run. -/

def RustDoc.build (d : RustDoc) : Except CapacityError RustDocSeeker :=
  if d.items.length ≤ 4294967295 then
    .ok ⟨d.items, (groupRanges d.items).map fun e => (e.1, e.2.1 * 4294967296 + e.2.2)⟩
  else
    .error .capacity

/-- The `RustDocSeeker::search`: the `fst` stream yields, in ascending key
order, the packed values of the keys the automaton accepts (the automaton
modelled by its acceptance predicate `m` on keys); each value is decoded as
`start = idx >> 32`, `end = idx & 0xffffffff` and the slice
`items[start..end]` is emitted. -/

def RustDocSeeker.search (sk : RustDocSeeker) (m : List Nat → Bool) : List DocItem :=
  ((sk.index.filter fun kv => m kv.1).map fun kv => kv.2).flatMap fun idx =>
    (sk.items.drop (idx / 4294967296)).take (idx % 4294967296 - idx / 4294967296)

/-- The scanner loop of `fix_json` (`json.rs`), with the source's mutable
`buffer` as an accumulator: `match chr` tries, in order, `'N' if
!is_string` (push `"null"`, `continue` — the flags are left untouched),
`'"' if !is_escape` (toggle `is_string`), `'\\' if !is_escape` (set
`is_escape`), catch-all (clear `is_escape`); every arm but the first then
pushes the character itself. -/

def fixJsonLoop (is_escape is_string : Bool) (buffer : List Char) :
    List Char → List Char
  | [] => buffer
  | chr :: rest =>
    if chr = 'N' ∧ is_string = false then
      fixJsonLoop is_escape is_string (buffer ++ ['n', 'u', 'l', 'l']) rest
    else if chr = '"' ∧ is_escape = false then
      fixJsonLoop is_escape (!is_string) (buffer ++ [chr]) rest
    else if chr = '\\' ∧ is_escape = false then
      fixJsonLoop true is_string (buffer ++ [chr]) rest
    else
      fixJsonLoop false is_string (buffer ++ [chr]) rest

/-- The `fix_json` from `json.rs`: run the scanner over the characters with
both flags clear and an empty buffer. -/

def fix_json (json : String) : String :=
  String.mk (fixJsonLoop false false [] json.data)

/-- The same scan in direct-recursion form: a bare `N` becomes `null`
exactly when the scan is outside a quoted string (the escape flag is not
consulted for `N`, and a replacement leaves both flags unchanged); every
other character passes through unchanged with the quote/backslash flag
transitions of the source. -/

def fixJsonSpec (is_escape is_string : Bool) : List Char → List Char
  | [] => []
  | chr :: rest =>
    if chr = 'N' ∧ is_string = false then
      'n' :: 'u' :: 'l' :: 'l' :: fixJsonSpec is_escape is_string rest
    else if chr = '"' ∧ is_escape = false then
      chr :: fixJsonSpec is_escape (!is_string) rest
    else if chr = '\\' ∧ is_escape = false then
      chr :: fixJsonSpec true is_string rest
    else
      chr :: fixJsonSpec false is_string rest

/-- The normalizer exactly as claim C3 words it: a bare `N` is replaced
only when the scan is **both** outside a quoted string **and** the `N` is
not itself escaped by a preceding unescaped backslash; otherwise the
character passes through with the usual flag transitions. -/

def fixJsonClaim (is_escape is_string : Bool) : List Char → List Char
  | [] => []
  | chr :: rest =>
    if chr = 'N' ∧ is_string = false ∧ is_escape = false then
      'n' :: 'u' :: 'l' :: 'l' :: fixJsonClaim is_escape is_string rest
    else if chr = '"' ∧ is_escape = false then
      chr :: fixJsonClaim is_escape (!is_string) rest
    else if chr = '\\' ∧ is_escape = false then
      chr :: fixJsonClaim true is_string rest
    else
      chr :: fixJsonClaim false is_string rest

/-- One manifest line of `FromStr for RustDoc`, character level: the text
handed to `serde_json::from_str` is
`&line[line.find('=').unwrap() + 2 .. line.len() - 1]` — everything after
the first `=` and the following character, with the trailing character
(the `;`) dropped. -/

def extractFragment (line : List Char) : List Char :=
  ((line.dropWhile fun c => c ≠ '=').drop 2).dropLast

/-- The fragment texts `from_str` deserializes, one per line that starts
with `searchIndex`: the extracted fragment is handed to the deserializer
as-is — `fix_json` is never called in `parser.rs`. -/

def fromStrFragments (s : String) : List (List Char) :=
  ((List.splitOn '\n' s.data).filter fun line =>
      List.isPrefixOf "searchIndex".data line).map extractFragment

/-- The `IndexItem` from `parser.rs`, as it enters the path-resolution loop:
the integer type tag (`ty`, deserialized 0–22), name, raw `path`
(`"" = inherit previous`), description and optional `parent_idx`.  The
`parent` attachment and `search_type` payload are not touched by the path
fold and are omitted here. -/

structure IndexItem where
  ty : Nat
  name : String
  path : String
  desc : String
  parent_idx : Option Nat
deriving DecidableEq

/-- The per-fragment path-resolution loop of `FromStr for RustDoc`:
`if !item.path.is_empty() { last_path = item.path; } item.path =
last_path.clone();`, one item at a time in original order. -/

def resolvePathsGo (last_path : String) : List IndexItem → List IndexItem
  | [] => []
  | item :: rest =>
    let lp := if item.path ≠ "" then item.path else last_path
    { item with path := lp } :: resolvePathsGo lp rest

/-- The whole per-fragment fold: the accumulator starts empty
(`let mut last_path = DefaultAtom::from("");`). -/

def resolvePaths (items : List IndexItem) : List IndexItem :=
  resolvePathsGo "" items

/-- The value a last-non-empty accumulator holds after scanning `ps`
starting from `acc`. -/

def lastPathFrom (acc : String) (ps : List String) : String :=
  ((ps.filter fun p => p ≠ "").getLast?).getD acc

/-- Spec-side accumulator description for C5: the last non-empty raw path
so far, else the empty start value. -/

def lastNonEmptyPath (ps : List String) : String := lastPathFrom "" ps

/-- The loop of `DocItem::fmt_url`:
`for part in self.path.split("::") { write!(f, "{}/", part)?; }` — every
segment is written followed by `/`. -/

def urlSegsWrite : List String → String
  | [] => ""
  | p :: ps => p ++ "/" ++ urlSegsWrite ps

/-- The `DocItem::fmt_url`: the `::`-segments of `path` each followed by `/`,
then `{parent}.html#{name}` when a parent exists, else
`{bare name}/index.html` for a module, else `{name}.html`, displays being
`tag.name`. -/

def fmt_url (d : DocItem) : String :=
  urlSegsWrite (d.path.splitOn "::") ++
    match d.parent with
    | some parent => parent.display ++ ".html#" ++ d.name.display
    | none =>
      match d.name with
      | TypeItem.Module n => n ++ "/index.html"
      | _ => d.name.display ++ ".html"

/-- Join by `/`, as claim C9 words it. -/

def joinSlash : List String → String
  | [] => ""
  | [p] => p
  | p :: ps => p ++ "/" ++ joinSlash ps

/-- The rendered display path as claim C9 describes it: the `::`-path
segments and the final `.html` component joined by `/`. -/

def specUrl (d : DocItem) : String :=
  joinSlash (d.path.splitOn "::" ++
    [match d.parent with
     | some parent => parent.display ++ ".html#" ++ d.name.display
     | none =>
       match d.name with
       | TypeItem.Module n => n ++ "/index.html"
       | _ => d.name.display ++ ".html"])

/-- The `std::vec` as a module item and as a macro item: same bare name, same
path, no parent, differing only in entity category. -/

def vecModuleItem : DocItem := DocItem.mk (TypeItem.Module "vec") none "std" ""

def vecMacroItem : DocItem := DocItem.mk ( TypeItem.Macro "vec") none "std" ""

/-- Two items identical except for their parents (struct `a` vs macro `b`):
bare-name order and category-tagged display order disagree. -/

def fnUnderStructA : DocItem :=
  DocItem.mk (TypeItem.Function "f") (some (TypeItem.Struct "a")) "p" ""

def fnUnderMacroB : DocItem :=
  DocItem.mk (TypeItem.Function "f") (some ( TypeItem.Macro "b")) "p" ""

/-- Concrete catalog items for witnesses: two `dedup` functions at
different paths and one `vec` struct — sorted, with a two-element key run
followed by a singleton run. -/

def exA : DocItem := DocItem.mk (TypeItem.Function "dedup") none "alloc::vec" ""

def exB : DocItem := DocItem.mk (TypeItem.Function "dedup") none "std::vec" ""

def exC : DocItem := DocItem.mk (TypeItem.Struct "vec") none "std" ""

theorem natsCmp_self (a : List Nat) : natsCmp a a = .eq := by
  induction a with
  | nil => rfl
  | cons x xs ih => simp [natsCmp, Nat.compare_eq_eq.mpr rfl, Ordering.then, ih]

theorem natsCmp_eq_iff {a b : List Nat} : natsCmp a b = .eq ↔ a = b := by
  induction a generalizing b with
  | nil => cases b <;> simp [natsCmp]
  | cons x xs ih =>
    cases b with
    | nil => simp [natsCmp]
    | cons y ys =>
      cases h : compare x y with
      | lt =>
        have hne : x ≠ y := Nat.ne_of_lt (Nat.compare_eq_lt.mp h)
        simp [natsCmp, h, Ordering.then, hne]
      | eq =>
        have hxy : x = y := Nat.compare_eq_eq.mp h
        subst hxy
        simp [natsCmp, h, Ordering.then, ih]
      | gt =>
        have hne : x ≠ y := (Nat.ne_of_lt (Nat.compare_eq_gt.mp h)).symm
        simp [natsCmp, h, Ordering.then, hne]

theorem natsCmp_swap (a b : List Nat) : natsCmp b a = (natsCmp a b).swap := by
  induction a generalizing b with
  | nil => cases b <;> simp [natsCmp, Ordering.swap]
  | cons x xs ih =>
    cases b with
    | nil => simp [natsCmp, Ordering.swap]
    | cons y ys =>
      cases h : compare x y with
      | lt =>
        have hyx : compare y x = .gt := Nat.compare_eq_gt.mpr (Nat.compare_eq_lt.mp h)
        simp [natsCmp, h, hyx, Ordering.then, Ordering.swap]
      | eq =>
        have hxy : x = y := Nat.compare_eq_eq.mp h
        subst hxy
        simp [natsCmp, h, Ordering.then, ih]
      | gt =>
        have hyx : compare y x = .lt := Nat.compare_eq_lt.mpr (Nat.compare_eq_gt.mp h)
        simp [natsCmp, h, hyx, Ordering.then, Ordering.swap]

theorem natsCmp_lt_trans {a b c : List Nat} (hab : natsCmp a b = .lt)
    (hbc : natsCmp b c = .lt) : natsCmp a c = .lt := by
  induction a generalizing b c with
  | nil =>
    cases b with
    | nil => simp [natsCmp] at hab
    | cons y ys => cases c <;> simp [natsCmp] at hbc ⊢
  | cons x xs ih =>
    cases b with
    | nil => simp [natsCmp] at hab
    | cons y ys =>
      cases c with
      | nil => simp [natsCmp] at hbc
      | cons z zs =>
        cases hxy : compare x y with
        | lt =>
          cases hyz : compare y z with
          | lt =>
            have : compare x z = .lt :=
              Nat.compare_eq_lt.mpr
                (Nat.lt_trans (Nat.compare_eq_lt.mp hxy) (Nat.compare_eq_lt.mp hyz))
            simp [natsCmp, this, Ordering.then]
          | eq =>
            have hyz' : y = z := Nat.compare_eq_eq.mp hyz
            subst hyz'
            simp [natsCmp, hxy, Ordering.then]
          | gt => simp [natsCmp, hyz, Ordering.then] at hbc
        | eq =>
          have hxy' : x = y := Nat.compare_eq_eq.mp hxy
          subst hxy'
          simp only [natsCmp, hxy, Ordering.then] at hab
          cases hyz : compare x z with
          | lt => simp [natsCmp, hyz, Ordering.then]
          | eq =>
            have hz : x = z := Nat.compare_eq_eq.mp hyz
            subst hz
            simp only [natsCmp, hyz, Ordering.then] at hbc ⊢
            exact ih hab hbc
          | gt => simp [natsCmp, hyz, Ordering.then] at hbc
        | gt => simp [natsCmp, hxy, Ordering.then] at hab

theorem optCmp_self (a : Option (List Nat)) : optCmp a a = .eq := by
  cases a <;> simp [optCmp, natsCmp_self]

theorem optCmp_eq_iff {a b : Option (List Nat)} : optCmp a b = .eq ↔ a = b := by
  cases a <;> cases b <;> simp [optCmp, natsCmp_eq_iff]

theorem optCmp_swap (a b : Option (List Nat)) : optCmp b a = (optCmp a b).swap := by
  cases a <;> cases b
  · rfl
  · rfl
  · rfl
  · exact natsCmp_swap _ _

theorem optCmp_lt_trans {a b c : Option (List Nat)} (hab : optCmp a b = .lt)
    (hbc : optCmp b c = .lt) : optCmp a c = .lt := by
  cases a <;> cases b <;> cases c <;> simp [optCmp] at hab hbc ⊢
  exact natsCmp_lt_trans hab hbc

theorem ordThen_eq_eq {a b : Ordering} : a.then b = .eq ↔ a = .eq ∧ b = .eq := by
  cases a <;> cases b <;> simp [Ordering.then]

theorem ordThen_eq_lt {a b : Ordering} :
    a.then b = .lt ↔ a = .lt ∨ (a = .eq ∧ b = .lt) := by
  cases a <;> cases b <;> simp [Ordering.then]

theorem docItemCmp_self (x : DocItem) : docItemCmp x x = .eq := by
  simp [docItemCmp, natsCmp_self, optCmp_self, Ordering.then]

theorem docItemCmp_eq_iff {x y : DocItem} :
    docItemCmp x y = .eq ↔
      x.indexKey = y.indexKey ∧ strBytes x.path = strBytes y.path ∧
        x.parentBytes = y.parentBytes := by
  simp [docItemCmp, ordThen_eq_eq, natsCmp_eq_iff, optCmp_eq_iff, and_assoc]

theorem docItemCmp_swap (x y : DocItem) : docItemCmp y x = (docItemCmp x y).swap := by
  have hthen : ∀ a b : Ordering, (a.then b).swap = a.swap.then b.swap := by
    intro a b; cases a <;> cases b <;> rfl
  unfold docItemCmp
  rw [natsCmp_swap x.indexKey y.indexKey,
      natsCmp_swap (strBytes x.path) (strBytes y.path),
      optCmp_swap x.parentBytes y.parentBytes, ← hthen, ← hthen]

theorem docItemCmp_congr_left {x y : DocItem} (h : docItemCmp x y = .eq)
    (z : DocItem) : docItemCmp x z = docItemCmp y z := by
  obtain ⟨h1, h2, h3⟩ := docItemCmp_eq_iff.mp h
  simp [docItemCmp, h1, h2, h3]

theorem docItemCmp_lt_trans {x y z : DocItem} (hxy : docItemCmp x y = .lt)
    (hyz : docItemCmp y z = .lt) : docItemCmp x z = .lt := by
  simp only [docItemCmp, ordThen_eq_lt, ordThen_eq_eq] at hxy hyz ⊢
  rcases hxy with (hk1 | ⟨hk1, hp1⟩) | ⟨⟨hk1, hp1⟩, hq1⟩ <;>
    rcases hyz with (hk2 | ⟨hk2, hp2⟩) | ⟨⟨hk2, hp2⟩, hq2⟩
  · exact Or.inl (Or.inl (natsCmp_lt_trans hk1 hk2))
  · rw [natsCmp_eq_iff] at hk2; rw [hk2] at hk1; exact Or.inl (Or.inl hk1)
  · rw [natsCmp_eq_iff] at hk2; rw [hk2] at hk1; exact Or.inl (Or.inl hk1)
  · rw [natsCmp_eq_iff] at hk1; rw [← hk1] at hk2; exact Or.inl (Or.inl hk2)
  · rw [natsCmp_eq_iff] at hk1 hk2
    exact Or.inl (Or.inr ⟨by rw [hk1, hk2, natsCmp_self], natsCmp_lt_trans hp1 hp2⟩)
  · rw [natsCmp_eq_iff] at hk1 hk2
    rw [natsCmp_eq_iff] at hp2
    exact Or.inl (Or.inr ⟨by rw [hk1, hk2, natsCmp_self], by rw [← hp2]; exact hp1⟩)
  · rw [natsCmp_eq_iff] at hk1; rw [← hk1] at hk2; exact Or.inl (Or.inl hk2)
  · rw [natsCmp_eq_iff] at hk1 hk2
    rw [natsCmp_eq_iff] at hp1
    exact Or.inl (Or.inr ⟨by rw [hk1, hk2, natsCmp_self], by rw [hp1]; exact hp2⟩)
  · rw [natsCmp_eq_iff] at hk1 hk2
    rw [natsCmp_eq_iff] at hp1 hp2
    refine Or.inr ⟨⟨by rw [hk1, hk2, natsCmp_self], by rw [hp1, hp2, natsCmp_self]⟩, ?_⟩
    exact optCmp_lt_trans hq1 hq2

theorem docItemCmp_eq_lt_trans {x y z : DocItem} (hxy : docItemCmp x y = .eq)
    (hyz : docItemCmp y z = .lt) : docItemCmp x z = .lt := by
  rw [docItemCmp_congr_left hxy]; exact hyz

theorem docItemCmp_congr_right {y z : DocItem} (h : docItemCmp y z = .eq)
    (x : DocItem) : docItemCmp x y = docItemCmp x z := by
  obtain ⟨h1, h2, h3⟩ := docItemCmp_eq_iff.mp h
  simp [docItemCmp, h1, h2, h3]

theorem docItemCmp_lt_eq_trans {x y z : DocItem} (hxy : docItemCmp x y = .lt)
    (hyz : docItemCmp y z = .eq) : docItemCmp x z = .lt := by
  rw [← docItemCmp_congr_right hyz x]; exact hxy

theorem sorted_rel_of_mem {y : DocItem} {ys : List DocItem}
    (h : SortedSet (y :: ys)) : ∀ z ∈ ys, docItemCmp y z = .lt := by
  induction ys generalizing y with
  | nil => intro z hz; cases hz
  | cons w ws ih =>
    rcases List.chain'_cons.mp h with ⟨hyw, htail⟩
    intro z hz
    rcases List.mem_cons.mp hz with hz | hz
    · rw [hz]; exact hyw
    · exact docItemCmp_lt_trans hyw (ih htail z hz)

theorem mem_of_mem_setInsert {x z : DocItem} {s : List DocItem}
    (h : z ∈ setInsert x s) : z = x ∨ z ∈ s := by
  induction s with
  | nil => simp only [setInsert, List.mem_singleton] at h; exact Or.inl h
  | cons y ys ih =>
    cases hc : docItemCmp x y <;>
      simp only [setInsert, hc, List.mem_cons] at h
    · rcases h with h | h
      · exact Or.inl h
      · exact Or.inr (List.mem_cons.mpr h)
    · exact Or.inr (List.mem_cons.mpr h)
    · rcases h with h | h
      · exact Or.inr (List.mem_cons.mpr (Or.inl h))
      · rcases ih h with h' | h'
        · exact Or.inl h'
        · exact Or.inr (List.mem_cons.mpr (Or.inr h'))

theorem mem_setInsert_of_mem {x z : DocItem} {s : List DocItem} (h : z ∈ s) :
    z ∈ setInsert x s := by
  induction s with
  | nil => cases h
  | cons y ys ih =>
    rcases List.mem_cons.mp h with h' | h' <;>
      cases hc : docItemCmp x y <;>
        simp only [setInsert, hc, List.mem_cons]
    · exact Or.inr (Or.inl h')
    · exact Or.inl h'
    · exact Or.inl h'
    · exact Or.inr (Or.inr h')
    · exact Or.inr h'
    · exact Or.inr (ih h')

theorem cmpMem_setInsert_self (x : DocItem) (s : List DocItem) :
    CmpMem x (setInsert x s) := by
  induction s with
  | nil => exact ⟨x, List.mem_singleton.mpr rfl, docItemCmp_self x⟩
  | cons y ys ih =>
    cases hc : docItemCmp x y with
    | lt => exact ⟨x, by simp [setInsert, hc], docItemCmp_self x⟩
    | eq => exact ⟨y, by simp [setInsert, hc], hc⟩
    | gt =>
      rcases ih with ⟨z, hz, hcz⟩
      refine ⟨z, ?_, hcz⟩
      simp only [setInsert, hc, List.mem_cons]
      exact Or.inr hz

theorem cmpMem_setInsert_of_cmpMem {x z : DocItem} {s : List DocItem}
    (h : CmpMem z s) : CmpMem z (setInsert x s) := by
  rcases h with ⟨y, hy, hcy⟩
  exact ⟨y, mem_setInsert_of_mem hy, hcy⟩

theorem head?_setInsert (x : DocItem) (s : List DocItem) :
    (setInsert x s).head? = some x ∨ (setInsert x s).head? = s.head? := by
  cases s with
  | nil => exact Or.inl rfl
  | cons y ys =>
    cases hc : docItemCmp x y with
    | lt => exact Or.inl (by simp [setInsert, hc])
    | eq => exact Or.inr (by simp [setInsert, hc])
    | gt => exact Or.inr (by simp [setInsert, hc])

theorem sorted_setInsert {s : List DocItem} (hs : SortedSet s) (x : DocItem) :
    SortedSet (setInsert x s) := by
  induction s with
  | nil => exact List.chain'_singleton x
  | cons y ys ih =>
    have hys : SortedSet ys := hs.tail
    cases hc : docItemCmp x y with
    | lt =>
      simp only [setInsert, hc]
      exact List.chain'_cons.mpr ⟨hc, hs⟩
    | eq => simpa [setInsert, hc] using hs
    | gt =>
      simp only [setInsert, hc]
      refine List.chain'_cons'.mpr ⟨?_, ih hys⟩
      intro z hz
      rcases head?_setInsert x ys with hh | hh
      · rw [hh] at hz
        have hx : x = z := by simpa using hz
        subst hx
        rw [docItemCmp_swap x y, hc]
        rfl
      · rw [hh] at hz
        exact (List.chain'_cons'.mp hs).1 z hz

theorem setInsert_of_cmpMem {x : DocItem} {s : List DocItem}
    (hs : SortedSet s) (h : CmpMem x s) : setInsert x s = s := by
  induction s with
  | nil => rcases h with ⟨y, hy, _⟩; cases hy
  | cons y ys ih =>
    cases hc : docItemCmp x y with
    | lt =>
      exfalso
      rcases h with ⟨z, hz, hcz⟩
      rcases List.mem_cons.mp hz with hz' | hz'
      · subst hz'; rw [hcz] at hc; cases hc
      · have hlt := sorted_rel_of_mem hs z hz'
        have := docItemCmp_lt_trans hc hlt
        rw [hcz] at this; cases this
    | eq => simp [setInsert, hc]
    | gt =>
      have h' : CmpMem x ys := by
        rcases h with ⟨z, hz, hcz⟩
        rcases List.mem_cons.mp hz with hz' | hz'
        · subst hz'; rw [hcz] at hc; cases hc
        · exact ⟨z, hz', hcz⟩
      simp [setInsert, hc, ih hs.tail h']

theorem setInsert_setInsert {x y : DocItem} (h : docItemCmp x y = .eq)
    (s : List DocItem) : setInsert y (setInsert x s) = setInsert x s := by
  have hyx : docItemCmp y x = .eq := by rw [docItemCmp_swap, h]; rfl
  induction s with
  | nil =>
    simp only [setInsert]
    rw [show docItemCmp y x = .eq from hyx]
  | cons z zs ih =>
    cases hc : docItemCmp x z with
    | lt =>
      simp only [setInsert, hc]
      rw [show docItemCmp y x = .eq from hyx]
    | eq =>
      have hyz : docItemCmp y z = .eq := by
        rw [docItemCmp_congr_left hyx z]; exact hc
      simp only [setInsert, hc]
      rw [show docItemCmp y z = .eq from hyz]
    | gt =>
      have hyz : docItemCmp y z = .gt := by
        rw [docItemCmp_congr_left hyx z]; exact hc
      simp only [setInsert, hc]
      rw [show docItemCmp y z = .gt from hyz, ih]

theorem sorted_setExtend {s : List DocItem} (hs : SortedSet s) (t : List DocItem) :
    SortedSet (setExtend s t) := by
  induction t generalizing s with
  | nil => exact hs
  | cons z zs ih => exact ih (sorted_setInsert hs z)

theorem cmpMem_setExtend_of_cmpMem {z : DocItem} {s : List DocItem}
    (h : CmpMem z s) (t : List DocItem) : CmpMem z (setExtend s t) := by
  induction t generalizing s with
  | nil => exact h
  | cons w ws ih => exact ih (cmpMem_setInsert_of_cmpMem h)

theorem cmpMem_setExtend_of_mem {s t : List DocItem} :
    ∀ z ∈ t, CmpMem z (setExtend s t) := by
  induction t generalizing s with
  | nil => intro z hz; cases hz
  | cons w ws ih =>
    intro z hz
    rcases List.mem_cons.mp hz with hz' | hz'
    · subst hz'
      exact cmpMem_setExtend_of_cmpMem (cmpMem_setInsert_self z s) ws
    · exact ih z hz'

theorem setExtend_of_all_cmpMem {s : List DocItem} (hs : SortedSet s)
    {t : List DocItem} (h : ∀ z ∈ t, CmpMem z s) : setExtend s t = s := by
  induction t with
  | nil => rfl
  | cons w ws ih =>
    have hw : setInsert w s = s := setInsert_of_cmpMem hs (h w (List.mem_cons_self w ws))
    show setExtend (setInsert w s) ws = s
    rw [hw]
    exact ih fun z hz => h z (List.mem_cons_of_mem w hz)

theorem groupRangesGo_nil (i : Nat) : groupRangesGo i [] = [] := by
  simp [groupRangesGo]

theorem groupRangesGo_cons (i : Nat) (x : DocItem) (xs : List DocItem) :
    groupRangesGo i (x :: xs) =
      (x.indexKey, i, i + ((xs.takeWhile (sameKey x)).length + 1)) ::
        groupRangesGo (i + ((xs.takeWhile (sameKey x)).length + 1))
          (xs.dropWhile (sameKey x)) := by
  simp [groupRangesGo]

theorem take_length_takeWhile {α : Type _} (p : α → Bool) (l : List α) :
    l.take (l.takeWhile p).length = l.takeWhile p := by
  induction l with
  | nil => rfl
  | cons a l ih =>
    by_cases h : p a
    · simp [List.takeWhile_cons, h, ih]
    · simp [List.takeWhile_cons, h]

theorem slice_of_first_run (pre : List DocItem) (x : DocItem) (xs : List DocItem) :
    ((pre ++ x :: xs).drop pre.length).take
        (pre.length + ((xs.takeWhile (sameKey x)).length + 1) - pre.length)
      = x :: xs.takeWhile (sameKey x) := by
  rw [Nat.add_sub_cancel_left, List.drop_left, List.take_succ_cons]
  congr 1
  exact take_length_takeWhile (sameKey x) xs

theorem groupRangesGo_flatMap_slice :
    ∀ n, ∀ l : List DocItem, l.length ≤ n → ∀ pre : List DocItem,
      (groupRangesGo pre.length l).flatMap
          (fun e => ((pre ++ l).drop e.2.1).take (e.2.2 - e.2.1)) = l := by
  intro n
  induction n with
  | zero =>
    intro l hl pre
    have hnil : l = [] := List.length_eq_zero.mp (Nat.le_zero.mp hl)
    subst hnil
    simp [groupRangesGo_nil]
  | succ n ih =>
    intro l hl pre
    cases l with
    | nil => simp [groupRangesGo_nil]
    | cons x xs =>
      have htw : xs.takeWhile (sameKey x) ++ xs.dropWhile (sameKey x) = xs :=
        List.takeWhile_append_dropWhile _ _
      have hxl : xs.length ≤ n := by
        simp only [List.length_cons] at hl; omega
      have hdwlen : (xs.dropWhile (sameKey x)).length ≤ n :=
        le_trans (List.dropWhile_sublist _).length_le hxl
      have hrest := ih (xs.dropWhile (sameKey x)) hdwlen (pre ++ x :: xs.takeWhile (sameKey x))
      have hpre : (pre ++ x :: xs.takeWhile (sameKey x)).length
          = pre.length + ((xs.takeWhile (sameKey x)).length + 1) := by
        simp [List.length_append]
      have happ : (pre ++ x :: xs.takeWhile (sameKey x)) ++ xs.dropWhile (sameKey x)
          = pre ++ x :: xs := by
        rw [List.append_assoc]
        simp [htw]
      rw [hpre, happ] at hrest
      simp only [groupRangesGo_cons, List.flatMap_cons]
      rw [slice_of_first_run, hrest]
      simp [htw]

theorem groupRangesGo_bounds :
    ∀ n, ∀ l : List DocItem, l.length ≤ n → ∀ i, ∀ e ∈ groupRangesGo i l,
      i ≤ e.2.1 ∧ e.2.1 < e.2.2 ∧ e.2.2 ≤ i + l.length := by
  intro n
  induction n with
  | zero =>
    intro l hl i e he
    have hnil : l = [] := List.length_eq_zero.mp (Nat.le_zero.mp hl)
    subst hnil
    rw [groupRangesGo_nil] at he
    cases he
  | succ n ih =>
    intro l hl i e he
    cases l with
    | nil => rw [groupRangesGo_nil] at he; cases he
    | cons x xs =>
      have htw : xs.takeWhile (sameKey x) ++ xs.dropWhile (sameKey x) = xs :=
        List.takeWhile_append_dropWhile _ _
      have hlensum : (xs.takeWhile (sameKey x)).length + (xs.dropWhile (sameKey x)).length
          = xs.length := by
        have hlen := congrArg List.length htw
        rw [List.length_append] at hlen
        exact hlen
      have hxl : xs.length ≤ n := by
        simp only [List.length_cons] at hl; omega
      have hdwlen : (xs.dropWhile (sameKey x)).length ≤ n :=
        le_trans (List.dropWhile_sublist _).length_le hxl
      rw [groupRangesGo_cons] at he
      rcases List.mem_cons.mp he with he | he
      · subst he
        simp only [List.length_cons]
        have := (List.takeWhile_sublist (l := xs) (p := sameKey x)).length_le
        omega
      · have := ih (xs.dropWhile (sameKey x)) hdwlen
          (i + ((xs.takeWhile (sameKey x)).length + 1)) e he
        simp only [List.length_cons]
        omega

theorem groupRangesGo_slice_key :
    ∀ n, ∀ l : List DocItem, l.length ≤ n → ∀ pre : List DocItem,
      ∀ e ∈ groupRangesGo pre.length l,
        ∀ d ∈ ((pre ++ l).drop e.2.1).take (e.2.2 - e.2.1), d.indexKey = e.1 := by
  intro n
  induction n with
  | zero =>
    intro l hl pre e he
    have hnil : l = [] := List.length_eq_zero.mp (Nat.le_zero.mp hl)
    subst hnil
    rw [groupRangesGo_nil] at he
    cases he
  | succ n ih =>
    intro l hl pre e he
    cases l with
    | nil => rw [groupRangesGo_nil] at he; cases he
    | cons x xs =>
      have htw : xs.takeWhile (sameKey x) ++ xs.dropWhile (sameKey x) = xs :=
        List.takeWhile_append_dropWhile _ _
      have hxl : xs.length ≤ n := by
        simp only [List.length_cons] at hl; omega
      have hdwlen : (xs.dropWhile (sameKey x)).length ≤ n :=
        le_trans (List.dropWhile_sublist _).length_le hxl
      have hpre : (pre ++ x :: xs.takeWhile (sameKey x)).length
          = pre.length + ((xs.takeWhile (sameKey x)).length + 1) := by
        simp [List.length_append]
      have happ : (pre ++ x :: xs.takeWhile (sameKey x)) ++ xs.dropWhile (sameKey x)
          = pre ++ x :: xs := by
        rw [List.append_assoc]
        simp [htw]
      rw [groupRangesGo_cons] at he
      rcases List.mem_cons.mp he with he | he
      · subst he
        intro d hd
        rw [slice_of_first_run] at hd
        rcases List.mem_cons.mp hd with hd | hd
        · rw [hd]
        · have := List.mem_takeWhile_imp hd
          simpa [sameKey] using this
      · intro d hd
        have hrec := ih (xs.dropWhile (sameKey x)) hdwlen (pre ++ x :: xs.takeWhile (sameKey x))
        rw [hpre, happ] at hrec
        exact hrec e he d hd

theorem groupRangesGo_flatMap_range' :
    ∀ n, ∀ l : List DocItem, l.length ≤ n → ∀ i,
      (groupRangesGo i l).flatMap (fun e => List.range' e.2.1 (e.2.2 - e.2.1))
        = List.range' i l.length := by
  intro n
  induction n with
  | zero =>
    intro l hl i
    have hnil : l = [] := List.length_eq_zero.mp (Nat.le_zero.mp hl)
    subst hnil
    simp [groupRangesGo_nil]
  | succ n ih =>
    intro l hl i
    cases l with
    | nil => simp [groupRangesGo_nil]
    | cons x xs =>
      have htw : xs.takeWhile (sameKey x) ++ xs.dropWhile (sameKey x) = xs :=
        List.takeWhile_append_dropWhile _ _
      have hlensum : (xs.takeWhile (sameKey x)).length + (xs.dropWhile (sameKey x)).length
          = xs.length := by
        have hlen := congrArg List.length htw
        rw [List.length_append] at hlen
        exact hlen
      have hxl : xs.length ≤ n := by
        simp only [List.length_cons] at hl; omega
      have hdwlen : (xs.dropWhile (sameKey x)).length ≤ n :=
        le_trans (List.dropWhile_sublist _).length_le hxl
      simp only [groupRangesGo_cons, List.flatMap_cons, Nat.add_sub_cancel_left]
      rw [ih (xs.dropWhile (sameKey x)) hdwlen (i + ((xs.takeWhile (sameKey x)).length + 1))]
      have := List.range'_append i ((xs.takeWhile (sameKey x)).length + 1)
        (xs.dropWhile (sameKey x)).length 1
      simp only [Nat.one_mul] at this
      rw [this]
      congr 1
      simp only [List.length_cons]
      omega

theorem groupRangesGo_keys_sorted :
    ∀ n, ∀ l : List DocItem, l.length ≤ n → SortedSet l → ∀ i,
      List.Chain' (fun a b => natsCmp a b = .lt)
        ((groupRangesGo i l).map fun e => e.1) := by
  intro n
  induction n with
  | zero =>
    intro l hl _ i
    have hnil : l = [] := List.length_eq_zero.mp (Nat.le_zero.mp hl)
    subst hnil
    simp [groupRangesGo_nil]
  | succ n ih =>
    intro l hl hsort i
    cases l with
    | nil => simp [groupRangesGo_nil]
    | cons x xs =>
      have hxl : xs.length ≤ n := by
        simp only [List.length_cons] at hl; omega
      have hdwlen : (xs.dropWhile (sameKey x)).length ≤ n :=
        le_trans (List.dropWhile_sublist _).length_le hxl
      have hdwsorted : SortedSet (xs.dropWhile (sameKey x)) :=
        List.Chain'.suffix hsort.tail (List.dropWhile_suffix _)
      simp only [groupRangesGo_cons, List.map_cons]
      refine List.chain'_cons'.mpr ⟨?_, ih _ hdwlen hdwsorted _⟩
      intro k hk
      cases hdw : xs.dropWhile (sameKey x) with
      | nil => rw [hdw, groupRangesGo_nil] at hk; cases hk
      | cons y0 dws =>
        rw [hdw, groupRangesGo_cons] at hk
        simp only [List.map_cons, List.head?_cons, Option.mem_def, Option.some.injEq] at hk
        subst hk
        have hy0mem : y0 ∈ xs := by
          have hsuf : xs.dropWhile (sameKey x) <:+ xs := List.dropWhile_suffix _
          exact hsuf.subset (by rw [hdw]; exact List.mem_cons_self y0 dws)
        have hlt : docItemCmp x y0 = .lt := sorted_rel_of_mem hsort y0 hy0mem
        have hne : ¬sameKey x y0 = true := by
          have h2 := List.head?_dropWhile_not (sameKey x) xs
          rw [hdw] at h2
          simp only [List.head?_cons] at h2
          simp [h2]
        have hkne : y0.indexKey ≠ x.indexKey := by
          simpa [sameKey] using hne
        simp only [docItemCmp, ordThen_eq_lt, ordThen_eq_eq] at hlt
        rcases hlt with (hk1 | ⟨hk1, _⟩) | ⟨⟨hk1, _⟩, _⟩
        · exact hk1
        · exact absurd (natsCmp_eq_iff.mp hk1).symm hkne
        · exact absurd (natsCmp_eq_iff.mp hk1).symm hkne

theorem decode_div {s e : Nat} (he : e < 4294967296) :
    (s * 4294967296 + e) / 4294967296 = s := by
  omega

theorem decode_mod {s e : Nat} (he : e < 4294967296) :
    (s * 4294967296 + e) % 4294967296 = e := by
  omega

theorem search_filter_map (items : List DocItem) (m : List Nat → Bool) :
    ∀ entries : List (List Nat × Nat × Nat),
      (∀ e ∈ entries, e.2.2 ≤ items.length) → items.length ≤ 4294967295 →
      ((((entries.map fun e => (e.1, e.2.1 * 4294967296 + e.2.2)).filter
            fun kv => m kv.1).map fun kv => kv.2).flatMap fun idx =>
          (items.drop (idx / 4294967296)).take (idx % 4294967296 - idx / 4294967296))
        = ((entries.filter fun e => m e.1).flatMap
            fun e => (items.drop e.2.1).take (e.2.2 - e.2.1)) := by
  intro entries
  induction entries with
  | nil => intro _ _; rfl
  | cons e es ih =>
    intro hb hlen
    have hbe : e.2.2 < 4294967296 := by
      have := hb e (List.mem_cons_self e es)
      omega
    have hrest := ih (fun e' he' => hb e' (List.mem_cons_of_mem e he')) hlen
    by_cases hm : m e.1 = true
    · simp only [List.map_cons, List.filter_cons, hm, if_pos, List.flatMap_cons, hrest,
        decode_div hbe, decode_mod hbe]
    · simp only [List.map_cons, List.filter_cons, hm, if_neg, List.flatMap_cons, hrest]
      simp [hm, hrest]

theorem flatMap_encode_range' (items : List DocItem) :
    ∀ entries : List (List Nat × Nat × Nat),
      (∀ e ∈ entries, e.2.2 ≤ items.length) → items.length ≤ 4294967295 →
      ((entries.map fun e => (e.1, e.2.1 * 4294967296 + e.2.2)).flatMap fun kv =>
          List.range' (kv.2 / 4294967296) (kv.2 % 4294967296 - kv.2 / 4294967296))
        = entries.flatMap fun e => List.range' e.2.1 (e.2.2 - e.2.1) := by
  intro entries
  induction entries with
  | nil => intro _ _; rfl
  | cons e es ih =>
    intro hb hlen
    have hbe : e.2.2 < 4294967296 := by
      have := hb e (List.mem_cons_self e es)
      omega
    have hrest := ih (fun e' he' => hb e' (List.mem_cons_of_mem e he')) hlen
    simp only [List.map_cons, List.flatMap_cons, hrest, decode_div hbe, decode_mod hbe]

theorem chain'_keys_sublist {l' l : List (List Nat)} (hsub : List.Sublist l' l)
    (h : List.Chain' (fun a b => natsCmp a b = .lt) l) :
    List.Chain' (fun a b => natsCmp a b = .lt) l' := by
  haveI : IsTrans (List Nat) (fun a b => natsCmp a b = .lt) :=
    ⟨fun _ _ _ => natsCmp_lt_trans⟩
  exact List.chain'_iff_pairwise.mpr ((List.chain'_iff_pairwise.mp h).sublist hsub)

theorem groupRanges_bounds {items : List DocItem} {e : List Nat × Nat × Nat}
    (he : e ∈ groupRanges items) :
    e.2.1 < e.2.2 ∧ e.2.2 ≤ items.length := by
  have := groupRangesGo_bounds items.length items le_rfl 0 e he
  omega

theorem groupRanges_slice_key {items : List DocItem} {e : List Nat × Nat × Nat}
    (he : e ∈ groupRanges items) :
    ∀ d ∈ (items.drop e.2.1).take (e.2.2 - e.2.1), d.indexKey = e.1 := by
  have h := groupRangesGo_slice_key items.length items le_rfl [] e
    (by simpa [groupRanges] using he)
  simpa using h

theorem groupRanges_flatMap_slice (items : List DocItem) :
    (groupRanges items).flatMap
        (fun e => (items.drop e.2.1).take (e.2.2 - e.2.1)) = items := by
  have h := groupRangesGo_flatMap_slice items.length items le_rfl []
  simpa [groupRanges] using h

theorem groupRanges_flatMap_range' (items : List DocItem) :
    (groupRanges items).flatMap (fun e => List.range' e.2.1 (e.2.2 - e.2.1))
      = List.range items.length := by
  have h := groupRangesGo_flatMap_range' items.length items le_rfl 0
  rw [List.range_eq_range']
  exact h

theorem groupRanges_keys_sorted {items : List DocItem} (hsort : SortedSet items) :
    List.Chain' (fun a b => natsCmp a b = .lt)
      ((groupRanges items).map fun e => e.1) :=
  groupRangesGo_keys_sorted items.length items le_rfl hsort 0

theorem build_ok_inv {d : RustDoc} {sk : RustDocSeeker} (hb : d.build = .ok sk) :
    d.items.length ≤ 4294967295 ∧
      sk = ⟨d.items,
        (groupRanges d.items).map fun e => (e.1, e.2.1 * 4294967296 + e.2.2)⟩ := by
  unfold RustDoc.build at hb
  by_cases hc : d.items.length ≤ 4294967295
  · rw [if_pos hc] at hb
    refine ⟨hc, ?_⟩
    injection hb with h
    exact h.symm
  · rw [if_neg hc] at hb
    cases hb

/-- Claim C1: For every built `SearchIndex` and every matcher, `search`
yields exactly the items of the slices `items[start..end]` of the accepted
keys: the output is the concatenation, over the accepted keys in ascending
key order, of the corresponding contiguous slices of the sorted item array
(array order preserved inside each slice); and a matcher accepting every
key yields exactly the full sorted item array in its canonical order. -/
theorem search_yields_slices_of_accepted_keys (d : RustDoc) (sk : RustDocSeeker)
    (m : List Nat → Bool) (hsort : SortedSet d.items) (hb : d.build = .ok sk) :
    sk.search m
        = (((groupRanges d.items).filter fun e => m e.1).flatMap
            fun e => (d.items.drop e.2.1).take (e.2.2 - e.2.1)) ∧
      List.Chain' (fun a b => natsCmp a b = .lt)
        (((groupRanges d.items).filter fun e => m e.1).map fun e => e.1) ∧
      sk.search (fun _ => true) = d.items := by
  obtain ⟨hlen, rfl⟩ := build_ok_inv hb
  have hbounds : ∀ e ∈ groupRanges d.items, e.2.2 ≤ d.items.length :=
    fun e he => (groupRanges_bounds he).2
  have hmain : ∀ m' : List Nat → Bool,
      RustDocSeeker.search
          ⟨d.items, (groupRanges d.items).map fun e => (e.1, e.2.1 * 4294967296 + e.2.2)⟩ m'
        = (((groupRanges d.items).filter fun e => m' e.1).flatMap
            fun e => (d.items.drop e.2.1).take (e.2.2 - e.2.1)) := by
    intro m'
    unfold RustDocSeeker.search
    exact search_filter_map d.items m' (groupRanges d.items) hbounds hlen
  refine ⟨hmain m, ?_, ?_⟩
  · exact chain'_keys_sublist
      ((List.filter_sublist (groupRanges d.items)).map fun e => e.1)
      (groupRanges_keys_sorted hsort)
  · rw [hmain (fun _ => true)]
    rw [List.filter_true]
    exact groupRanges_flatMap_slice d.items

/-- Claim C2: In the index produced by `build`, every key's decoded range
`(start, end)` is non-empty, every item of `items[start..end]` has exactly
that lookup key, and the decoded ranges, taken in index order, enumerate
`0, ..., items.length - 1` exactly (no gaps, no overlaps) while the keys
are strictly ascending (each key appears once). -/
theorem build_index_ranges_partition (d : RustDoc) (sk : RustDocSeeker)
    (hsort : SortedSet d.items) (hb : d.build = .ok sk) :
    (∀ kv ∈ sk.index,
        kv.2 / 4294967296 < kv.2 % 4294967296 ∧
        ∀ x ∈ (sk.items.drop (kv.2 / 4294967296)).take
            (kv.2 % 4294967296 - kv.2 / 4294967296), x.indexKey = kv.1) ∧
      (sk.index.flatMap fun kv =>
          List.range' (kv.2 / 4294967296) (kv.2 % 4294967296 - kv.2 / 4294967296))
        = List.range sk.items.length ∧
      List.Chain' (fun a b => natsCmp a b = .lt) (sk.index.map fun kv => kv.1) := by
  obtain ⟨hlen, rfl⟩ := build_ok_inv hb
  have hbounds : ∀ e ∈ groupRanges d.items, e.2.2 ≤ d.items.length :=
    fun e he => (groupRanges_bounds he).2
  refine ⟨?_, ?_, ?_⟩
  · intro kv hkv
    obtain ⟨e, he, rfl⟩ := List.mem_map.mp hkv
    have hbd := groupRanges_bounds he
    have hend : e.2.2 < 4294967296 := by omega
    rw [decode_div hend, decode_mod hend]
    exact ⟨hbd.1, groupRanges_slice_key he⟩
  · rw [flatMap_encode_range' d.items (groupRanges d.items) hbounds hlen]
    exact groupRanges_flatMap_range' d.items
  · have hmap : (((groupRanges d.items).map
          fun e => (e.1, e.2.1 * 4294967296 + e.2.2)).map fun kv => kv.1)
        = (groupRanges d.items).map fun e => e.1 := by
      simp [List.map_map, Function.comp]
    rw [hmap]
    exact groupRanges_keys_sorted hsort

theorem fixJsonLoop_eq_spec (l : List Char) :
    ∀ (is_escape is_string : Bool) (buffer : List Char),
      fixJsonLoop is_escape is_string buffer l
        = buffer ++ fixJsonSpec is_escape is_string l := by
  induction l with
  | nil => intro e s b; simp [fixJsonLoop, fixJsonSpec]
  | cons chr rest ih =>
    intro e s b
    by_cases h1 : chr = 'N' ∧ s = false
    · simp [fixJsonLoop, fixJsonSpec, h1, ih]
    · by_cases h2 : chr = '"' ∧ e = false
      · simp [fixJsonLoop, fixJsonSpec, h1, h2, ih]
      · by_cases h3 : chr = '\\' ∧ e = false
        · simp [fixJsonLoop, fixJsonSpec, h1, h2, h3, ih]
        · simp [fixJsonLoop, fixJsonSpec, h1, h2, h3, ih]

theorem fixJsonSpec_no_N (l : List Char) :
    ∀ (is_escape is_string : Bool), (∀ c ∈ l, c ≠ 'N') →
      fixJsonSpec is_escape is_string l = l := by
  induction l with
  | nil => intro e s _; rfl
  | cons chr rest ih =>
    intro e s h
    have hN : ¬(chr = 'N' ∧ s = false) := by
      intro hc
      exact h chr (List.mem_cons_self chr rest) hc.1
    have hrest : ∀ c ∈ rest, c ≠ 'N' :=
      fun c hc => h c (List.mem_cons_of_mem chr hc)
    by_cases h2 : chr = '"' ∧ e = false
    · simp [fixJsonSpec, hN, h2, ih _ _ hrest]
    · by_cases h3 : chr = '\\' ∧ e = false
      · simp [fixJsonSpec, hN, h2, h3, ih _ _ hrest]
      · simp [fixJsonSpec, hN, h2, h3, ih _ _ hrest]

/-- Claim C3 (amended): `fix_json` is a single left-to-right scan tracking
an inside-string flag and an unescaped-backslash flag; it replaces a bare
`N` with the literal `null` exactly when the scan is not inside a quoted
string — the escape flag is not consulted for `N` — and passes every other
character through unchanged, with the quote/backslash flag transitions; in
particular an input containing no `N` is returned verbatim, and the
module's own test vector normalizes as documented. -/
theorem fix_json_scan_spec (s : String) :
    fix_json s = String.mk (fixJsonSpec false false s.data) ∧
      ((∀ c ∈ s.data, c ≠ 'N') → fix_json s = s) ∧
      fix_json "[1,N,\"is \\\" N \", \"\\N\"]"
        = "[1,null,\"is \\\" N \", \"\\N\"]" := by
  refine ⟨?_, ?_, by decide⟩
  · rw [fix_json, fixJsonLoop_eq_spec]
    simp
  · intro h
    rw [fix_json, fixJsonLoop_eq_spec, fixJsonSpec_no_N _ _ _ h]
    rcases s with ⟨l⟩
    simp

/-- Witness for `fix_json_scan_spec` at the `N`-free input `[1,2]`. -/
theorem fix_json_scan_spec_witness :
    (∀ c ∈ ("[1,2]" : String).data, c ≠ 'N') ∧ fix_json "[1,2]" = "[1,2]" :=
  ⟨by decide, (fix_json_scan_spec "[1,2]").2.1 (by decide)⟩

/-- Claim C3 (counterexample): On the two-character input `\\N` — an `N`
preceded by an unescaped backslash, outside any string — the code still
substitutes `null` (the `'N' if !is_string` arm never consults
`is_escape`), while the claim's scanner (which also requires the `N` to be
unescaped) would leave the `N` untouched. -/
theorem fix_json_escaped_N_counterexample :
    fix_json "\\N" = "\\null" ∧
      String.mk (fixJsonClaim false false ("\\N" : String).data) = "\\N" ∧
      fix_json "\\N" ≠ String.mk (fixJsonClaim false false ("\\N" : String).data) := by
  decide

/-- Claim C4: Contrary to the claim (and §4.1/§2 of the spec), `from_str`
performs no `N`→`null` normalization: on the manifest line
`searchIndex["std"] = [N];` the deserializer receives the raw fragment
`[N]` and not its normalization `[null]`, which is what `fix_json` —
present in `json.rs` but never invoked from `parser.rs` — would produce. -/
theorem fromStr_skips_normalizer :
    fromStrFragments "searchIndex[\"std\"] = [N];" = [("[N]" : String).data] ∧
      fix_json "[N]" = "[null]" ∧
      ("[N]" : String) ≠ "[null]" := by
  decide

theorem getLast?_getD_cons (l : List String) :
    ∀ x d : String, (x :: l).getLast?.getD d = l.getLast?.getD x := by
  induction l with
  | nil => intro x d; rfl
  | cons y ys ih =>
    intro x d
    rw [List.getLast?_cons_cons, ih y d, ih y x]

theorem lastPathFrom_cons (acc p : String) (l : List String) :
    lastPathFrom acc (p :: l) = lastPathFrom (if p ≠ "" then p else acc) l := by
  by_cases hp : p = ""
  · subst hp
    simp [lastPathFrom, List.filter_cons]
  · simp [lastPathFrom, List.filter_cons, hp, getLast?_getD_cons]

theorem resolvePathsGo_paths (items : List IndexItem) :
    ∀ acc : String,
      ((resolvePathsGo acc items).map fun it => it.path)
        = (List.range items.length).map
            fun i => lastPathFrom acc ((items.take (i + 1)).map fun it => it.path) := by
  induction items with
  | nil => intro acc; simp [resolvePathsGo]
  | cons it rest ih =>
    intro acc
    simp only [resolvePathsGo, List.map_cons, List.length_cons]
    rw [List.range_succ_eq_map, List.map_cons, List.map_map]
    refine List.cons_eq_cons.mpr ⟨?_, ?_⟩
    · by_cases h : it.path = "" <;>
        simp [List.take_succ_cons, lastPathFrom_cons, lastPathFrom, h]
    · rw [ih (if it.path ≠ "" then it.path else acc)]
      refine List.map_congr_left ?_
      intro i _
      simp only [Function.comp]
      rw [List.take_succ_cons, List.map_cons, lastPathFrom_cons]

theorem resolvePathsGo_fields (items : List IndexItem) :
    ∀ acc : String,
      ((resolvePathsGo acc items).map fun it => (it.ty, it.name, it.desc, it.parent_idx))
        = items.map fun it => (it.ty, it.name, it.desc, it.parent_idx) := by
  induction items with
  | nil => intro acc; rfl
  | cons it rest ih => intro acc; simp [resolvePathsGo, ih]

theorem resolvePathsGo_nonempty (items : List IndexItem) :
    ∀ acc : String, acc ≠ "" → ∀ it ∈ resolvePathsGo acc items, it.path ≠ "" := by
  induction items with
  | nil => intro acc _ it hit; cases hit
  | cons hd rest ih =>
    intro acc hacc it hit
    simp only [resolvePathsGo, List.mem_cons] at hit
    have hlpne : (if hd.path ≠ "" then hd.path else acc) ≠ "" := by
      by_cases h : hd.path = "" <;> simp [h, hacc]
    rcases hit with hit | hit
    · rw [hit]
      exact hlpne
    · exact ih _ hlpne it hit

/-- Claim C5: Path resolution is the per-fragment sequential fold with a
last-non-empty-path accumulator initialized to the empty string: the
resolved path at position `i` is the last non-empty raw path among items
`0..=i` (an item with non-empty raw path keeps it and updates the
accumulator, an item with empty raw path receives the accumulator); all
other fields pass through in order; on the spec's example
`[{path:"a::b", name:"x"}, {path:"", name:"y"}]` both items resolve to
`a::b`. -/
theorem resolvePaths_fold_spec (items : List IndexItem) :
    ((resolvePaths items).map fun it => it.path)
        = ((List.range items.length).map
            fun i => lastNonEmptyPath ((items.take (i + 1)).map fun it => it.path)) ∧
      ((resolvePaths items).map fun it => (it.ty, it.name, it.desc, it.parent_idx))
        = (items.map fun it => (it.ty, it.name, it.desc, it.parent_idx)) ∧
      resolvePaths [⟨5, "x", "a::b", "", none⟩, ⟨5, "y", "", "", none⟩]
        = [⟨5, "x", "a::b", "", none⟩, ⟨5, "y", "a::b", "", none⟩] :=
  ⟨resolvePathsGo_paths items "", resolvePathsGo_fields items "", by decide⟩

/-- Claim C6 (counterexample): A fragment whose first item has an empty
raw path resolves without any error, yet the emitted item keeps the empty
path: the claimed invariant fails. -/
theorem resolvePaths_empty_path_counterexample :
    resolvePaths [⟨5, "y", "", "", none⟩] = [⟨5, "y", "", "", none⟩] ∧
      ¬(∀ it ∈ resolvePaths [⟨5, "y", "", "", none⟩], it.path ≠ "") := by
  constructor
  · decide
  · intro h
    exact h ⟨5, "y", "", "", none⟩ (by decide) rfl

/-- Claim C6 (amended): For every fragment whose first item has a
non-empty raw path, every emitted item has a non-empty path. -/
theorem resolvePaths_nonempty_of_first (items : List IndexItem)
    (h : ∀ first ∈ items.head?, first.path ≠ "") :
    ∀ it ∈ resolvePaths items, it.path ≠ "" := by
  cases items with
  | nil => intro it hit; cases hit
  | cons hd rest =>
    have hhd : hd.path ≠ "" := h hd rfl
    intro it hit
    simp only [resolvePaths, resolvePathsGo, List.mem_cons] at hit
    rcases hit with hit | hit
    · rw [hit]
      simp [hhd]
    · have : (if hd.path ≠ "" then hd.path else "") = hd.path := if_pos hhd
      rw [this] at hit
      exact resolvePathsGo_nonempty rest hd.path hhd it hit

/-- Witness for `resolvePaths_nonempty_of_first` at the spec's example
fragment. -/
theorem resolvePaths_nonempty_witness :
    (∀ first ∈ ([⟨5, "x", "a::b", "", none⟩,
        ⟨5, "y", "", "", none⟩] : List IndexItem).head?, first.path ≠ "") ∧
      ∀ it ∈ resolvePaths [⟨5, "x", "a::b", "", none⟩, ⟨5, "y", "", "", none⟩],
        it.path ≠ "" :=
  ⟨by decide, resolvePaths_nonempty_of_first _ (by decide)⟩

/-- Claim C7: Catalog insertion is set-like keyed by (lookup key, path,
parent): inserting a second item that agrees with a first on name, path
and parent (its `desc` may differ — `Ord` never reads it) is a no-op, so
the cardinality is unchanged and the first insert is the deterministic
survivor; merging the same second catalog again is likewise a no-op. -/
theorem catalog_dedup_idempotent (s t : List DocItem) (x y : DocItem)
    (hs : SortedSet s) (hname : x.name = y.name) (hparent : x.parent = y.parent)
    (hpath : x.path = y.path) :
    setInsert y (setInsert x s) = setInsert x s ∧
      (setInsert y (setInsert x s)).length = (setInsert x s).length ∧
      setExtend (setExtend s t) t = setExtend s t := by
  have hxy : docItemCmp x y = .eq := by
    refine docItemCmp_eq_iff.mpr ⟨?_, ?_, ?_⟩
    · rw [DocItem.indexKey, DocItem.indexKey, hname]
    · rw [hpath]
    · rw [DocItem.parentBytes, DocItem.parentBytes, hparent]
  refine ⟨setInsert_setInsert hxy s, by rw [setInsert_setInsert hxy s], ?_⟩
  exact setExtend_of_all_cmpMem (sorted_setExtend hs t)
    (fun z hz => cmpMem_setExtend_of_mem z hz)

/-- Witness for `catalog_dedup_idempotent`: a one-item sorted catalog, a
one-item second catalog, and a duplicate differing only in `desc`. -/
theorem catalog_dedup_witness :
    SortedSet [DocItem.mk (TypeItem.Struct "a") none "p" ""] ∧
      (DocItem.mk (TypeItem.Function "f") none "p" "").name
          = (DocItem.mk (TypeItem.Function "f") none "p" "alt").name ∧
      (DocItem.mk (TypeItem.Function "f") none "p" "").parent
          = (DocItem.mk (TypeItem.Function "f") none "p" "alt").parent ∧
      (DocItem.mk (TypeItem.Function "f") none "p" "").path
          = (DocItem.mk (TypeItem.Function "f") none "p" "alt").path ∧
      (setInsert (DocItem.mk (TypeItem.Function "f") none "p" "alt")
            (setInsert (DocItem.mk (TypeItem.Function "f") none "p" "")
              [DocItem.mk (TypeItem.Struct "a") none "p" ""])
          = setInsert (DocItem.mk (TypeItem.Function "f") none "p" "")
              [DocItem.mk (TypeItem.Struct "a") none "p" ""] ∧
        (setInsert (DocItem.mk (TypeItem.Function "f") none "p" "alt")
              (setInsert (DocItem.mk (TypeItem.Function "f") none "p" "")
                [DocItem.mk (TypeItem.Struct "a") none "p" ""])).length
          = (setInsert (DocItem.mk (TypeItem.Function "f") none "p" "")
              [DocItem.mk (TypeItem.Struct "a") none "p" ""]).length ∧
        setExtend (setExtend [DocItem.mk (TypeItem.Struct "a") none "p" ""]
              [DocItem.mk (TypeItem.Trait "t") none "q" ""])
            [DocItem.mk (TypeItem.Trait "t") none "q" ""]
          = setExtend [DocItem.mk (TypeItem.Struct "a") none "p" ""]
              [DocItem.mk (TypeItem.Trait "t") none "q" ""]) :=
  ⟨by decide, rfl, rfl, rfl,
    catalog_dedup_idempotent [DocItem.mk (TypeItem.Struct "a") none "p" ""]
      [DocItem.mk (TypeItem.Trait "t") none "q" ""]
      (DocItem.mk (TypeItem.Function "f") none "p" "")
      (DocItem.mk (TypeItem.Function "f") none "p" "alt")
      (by decide) rfl rfl rfl⟩

/-- Claim C8: `build` requires the deduplicated item count to be
representable in 32 bits: a catalog of exactly `u32::MAX = 2^32 - 1` items
builds successfully, one of `2^32` items fails, and the failure — the
`assert!`, modelled as a fatal `CapacityError` — is the entire result: no
index entry is emitted. -/
theorem build_capacity_boundary (dOk dBad : RustDoc)
    (hOk : dOk.items.length = 4294967295)
    (hBad : dBad.items.length = 4294967296) :
    (∃ sk, dOk.build = Except.ok sk) ∧
      dBad.build = Except.error CapacityError.capacity := by
  constructor
  · refine ⟨⟨dOk.items,
      (groupRanges dOk.items).map fun e => (e.1, e.2.1 * 4294967296 + e.2.2)⟩, ?_⟩
    unfold RustDoc.build
    rw [if_pos (by omega)]
  · unfold RustDoc.build
    rw [if_neg (by omega)]

/-- Witness for `build_capacity_boundary` with replicated items at exactly
the boundary counts. -/
theorem build_capacity_witness :
    (RustDoc.mk (List.replicate 4294967295
        (DocItem.mk (TypeItem.Struct "a") none "p" ""))).items.length = 4294967295 ∧
      (RustDoc.mk (List.replicate 4294967296
          (DocItem.mk (TypeItem.Struct "a") none "p" ""))).items.length = 4294967296 ∧
      ((∃ sk, (RustDoc.mk (List.replicate 4294967295
            (DocItem.mk (TypeItem.Struct "a") none "p" ""))).build = Except.ok sk) ∧
        (RustDoc.mk (List.replicate 4294967296
            (DocItem.mk (TypeItem.Struct "a") none "p" ""))).build
          = Except.error CapacityError.capacity) :=
  ⟨List.length_replicate 4294967295 _, List.length_replicate 4294967296 _,
    build_capacity_boundary _ _ (List.length_replicate 4294967295 _)
      (List.length_replicate 4294967296 _)⟩

theorem urlSegsWrite_append (t : String) :
    ∀ ps : List String, urlSegsWrite ps ++ t = joinSlash (ps ++ [t]) := by
  intro ps
  induction ps with
  | nil => exact String.empty_append t
  | cons p ps ih =>
    cases ps with
    | nil =>
      show (p ++ "/" ++ "") ++ t = p ++ "/" ++ t
      rw [String.append_empty]
    | cons q qs =>
      show (p ++ "/" ++ urlSegsWrite (q :: qs)) ++ t
        = p ++ "/" ++ joinSlash ((q :: qs) ++ [t])
      rw [String.append_assoc, ih]

/-- Claim C9: A `DocItem`'s rendered display is its `::`-path segments
joined by `/`, followed by `{parent-display}.html#{name-display}` when a
parent exists, else `{bare-name}/index.html` when the item is a module,
else `{name-display}.html`; each display form is `tag.bare-name`, with the
irregular tags `fn` for function and `type` for type alias. -/
theorem fmt_url_spec (d : DocItem) :
    fmt_url d = specUrl d ∧
      (∀ s, TypeItem.display (TypeItem.Function s) = "fn." ++ s) ∧
      (∀ s, TypeItem.display (TypeItem.Typedef s) = "type." ++ s) ∧
      (∀ t : TypeItem, t.display = t.tag ++ "." ++ t.asRef) := by
  refine ⟨?_, fun s => rfl, fun s => rfl, fun t => rfl⟩
  unfold fmt_url specUrl
  exact urlSegsWrite_append _ _

/-- Claim C10: `DocItem`'s ordering and equality are inconsistent: module
`vec` and macro `vec` at path `std` compare `Equal` under `Ord` yet are
unequal under `PartialEq`; consequently the set-based dedup keeps only one
of the two (cardinality 1 after inserting both); and `Ord` orders parents
by bare name — struct `a` before macro `b` — even though their
category-tagged display forms order the other way around. -/
theorem docItem_ord_eq_inconsistent :
    docItemCmp vecModuleItem vecMacroItem = .eq ∧
      docItemEq vecModuleItem vecMacroItem = false ∧
      (setInsert vecMacroItem (setInsert vecModuleItem [])).length = 1 ∧
      docItemCmp fnUnderStructA fnUnderMacroB = .lt ∧
      natsCmp (strBytes (TypeItem.display (TypeItem.Struct "a")))
          (strBytes (TypeItem.display ( TypeItem.Macro "b"))) = .gt := by
  decide

theorem groupRanges_example :
    groupRanges [exA, exB, exC] = [(strBytes "dedup", 0, 2), (strBytes "vec", 2, 3)] := by
  rw [groupRanges, groupRangesGo_cons]
  rw [show List.takeWhile (sameKey exA) [exB, exC] = [exB] from by decide]
  rw [show List.dropWhile (sameKey exA) [exB, exC] = [exC] from by decide]
  rw [groupRangesGo_cons, List.takeWhile_nil, List.dropWhile_nil, groupRangesGo_nil]
  decide

theorem build_example :
    RustDoc.build ⟨[exA, exB, exC]⟩
      = Except.ok ⟨[exA, exB, exC],
          [(strBytes "dedup", 2), (strBytes "vec", 8589934595)]⟩ := by
  unfold RustDoc.build
  rw [if_pos (by decide)]
  rw [groupRanges_example]
  exact congrArg Except.ok (by decide)

/-- Witness for `search_yields_slices_of_accepted_keys`: the three-item
catalog above with the matcher accepting exactly the key `vec`. -/
theorem search_yields_slices_witness :
    SortedSet [exA, exB, exC] ∧
      RustDoc.build ⟨[exA, exB, exC]⟩
        = Except.ok ⟨[exA, exB, exC],
            [(strBytes "dedup", 2), (strBytes "vec", 8589934595)]⟩ ∧
      ((RustDocSeeker.mk [exA, exB, exC]
            [(strBytes "dedup", 2), (strBytes "vec", 8589934595)]).search
            (fun k => k == strBytes "vec")
          = (((groupRanges [exA, exB, exC]).filter
                fun e => (fun k => k == strBytes "vec") e.1).flatMap
              fun e => ([exA, exB, exC].drop e.2.1).take (e.2.2 - e.2.1)) ∧
        List.Chain' (fun a b => natsCmp a b = .lt)
          (((groupRanges [exA, exB, exC]).filter
              fun e => (fun k => k == strBytes "vec") e.1).map fun e => e.1) ∧
        (RustDocSeeker.mk [exA, exB, exC]
            [(strBytes "dedup", 2), (strBytes "vec", 8589934595)]).search
            (fun _ => true)
          = [exA, exB, exC]) :=
  ⟨by decide, build_example,
    search_yields_slices_of_accepted_keys ⟨[exA, exB, exC]⟩
      (RustDocSeeker.mk [exA, exB, exC]
        [(strBytes "dedup", 2), (strBytes "vec", 8589934595)])
      (fun k => k == strBytes "vec") (by decide) build_example⟩

/-- Witness for `build_index_ranges_partition` on the same catalog. -/
theorem index_partition_witness :
    SortedSet [exA, exB, exC] ∧
      RustDoc.build ⟨[exA, exB, exC]⟩
        = Except.ok ⟨[exA, exB, exC],
            [(strBytes "dedup", 2), (strBytes "vec", 8589934595)]⟩ ∧
      ((∀ kv ∈ ([(strBytes "dedup", 2), (strBytes "vec", 8589934595)] : List (List Nat × Nat)),
          kv.2 / 4294967296 < kv.2 % 4294967296 ∧
          ∀ x ∈ ([exA, exB, exC].drop (kv.2 / 4294967296)).take
              (kv.2 % 4294967296 - kv.2 / 4294967296), x.indexKey = kv.1) ∧
        (([(strBytes "dedup", 2), (strBytes "vec", 8589934595)] :
              List (List Nat × Nat)).flatMap fun kv =>
            List.range' (kv.2 / 4294967296) (kv.2 % 4294967296 - kv.2 / 4294967296))
          = List.range ([exA, exB, exC] : List DocItem).length ∧
        List.Chain' (fun a b => natsCmp a b = .lt)
          (([(strBytes "dedup", 2), (strBytes "vec", 8589934595)] :
              List (List Nat × Nat)).map fun kv => kv.1)) :=
  ⟨by decide, build_example,
    build_index_ranges_partition ⟨[exA, exB, exC]⟩
      (RustDocSeeker.mk [exA, exB, exC]
        [(strBytes "dedup", 2), (strBytes "vec", 8589934595)])
      (by decide) build_example⟩

end RustdocSeeker

